import Mathlib

/-!
Verification of the tinge retrieval service (retrieval-service/app):
a shallow embedding of the chunker, corpus loader, branch runner,
RRF fusion engine and the result finalizer inside search, together
with theorems settling the specification claims about them.

Conventions of the embedding:
* Python str values are modeled as Lean String, except the chunker,
  which manipulates character positions and is modeled on List Char.
* Python float scores are modeled as exact rationals.
* Python dicts (which preserve insertion order and update values in
  place) are modeled as ordered association lists; setA below has
  exactly the dict-update behaviour.
* Python None (and dict.get misses) are modeled with Option.
* sorted(..., reverse=True) is a stable descending sort, modeled by
  List.insertionSort with the reflexive descending relation.
-/

namespace Tinge

/-- A haystack Document as the retrieval code reads it: score and content
on the object plus the meta dict written at indexing time. Absent meta
keys (and a None score or content) are Option none. -/
structure Doc where
  meta_chunk_id : Option String := none
  meta_doc_id : Option String := none
  meta_title : Option String := none
  meta_url : Option String := none
  meta_source : Option String := none
  meta_language : Option String := none
  meta_published_at : Option String := none
  content : Option String := none
  score : Option Rat := none
deriving DecidableEq, Repr

/-- search.py RetrievalService._doc_chunk_id: str(meta.get("chunk_id") or
f-string fallback). A missing or empty (falsy) chunk_id falls back to
doc_id plus "::chunk::na". -/
def doc_chunk_id (d : Doc) : String :=
  match d.meta_chunk_id with
  | none => d.meta_doc_id.getD "unknown" ++ "::chunk::na"
  | some s => if s = "" then d.meta_doc_id.getD "unknown" ++ "::chunk::na" else s

/-- float(doc.score or 0.0): a None score reads as 0. -/
def docScore (d : Doc) : Rat :=
  d.score.getD 0

theorem doc_chunk_id_set_score (d : Doc) (s : Option Rat) :
    doc_chunk_id { d with score := s } = doc_chunk_id d := rfl

theorem docScore_set_score (d : Doc) (s : Rat) :
    docScore { d with score := some s } = s := rfl

/-! ## Ordered association lists: the model of a Python dict.
Keys stay in first-insertion order; updating an existing key keeps its
position, a new key is appended at the end. -/

/-- Update key with f (given the present value, if any), as a Python
dict assignment or get-then-set does. -/
def setA {α : Type} (m : List (String × α)) (key : String) (f : Option α → α) :
    List (String × α) :=
  match m with
  | [] => [(key, f none)]
  | (k, v) :: rest =>
      if k = key then (k, f (some v)) :: rest else (k, v) :: setA rest key f

def lookupA {α : Type} : List (String × α) → String → Option α
  | [], _ => none
  | (k, v) :: rest, key => if k = key then some v else lookupA rest key

/-- Fold a sequence of inserts into an ordered association list: the
model of a Python loop that writes m[keyOf b] for each b. -/
def foldA {α β : Type} (keyOf : β → String) (f : β → Option α → α)
    (init : List (String × α)) (xs : List β) : List (String × α) :=
  xs.foldl (fun m b => setA m (keyOf b) (f b)) init

/-- First-seen key order of a stream of keys, starting from keys already
present: a new key is appended, a repeated key keeps its place. -/
def addKeys (acc : List String) : List String → List String
  | [] => acc
  | k :: ks => addKeys (if k ∈ acc then acc else acc ++ [k]) ks

theorem lookupA_setA_self {α : Type} (m : List (String × α)) (key : String)
    (f : Option α → α) : lookupA (setA m key f) key = some (f (lookupA m key)) := by
  induction m with
  | nil => simp [setA, lookupA]
  | cons kv rest ih =>
      obtain ⟨k, v⟩ := kv
      by_cases h : k = key
      · subst h; simp [setA, lookupA]
      · simp [setA, lookupA, h, ih]

theorem lookupA_setA_ne {α : Type} (m : List (String × α)) (key other : String)
    (f : Option α → α) (h : other ≠ key) :
    lookupA (setA m key f) other = lookupA m other := by
  induction m with
  | nil => simp [setA, lookupA, Ne.symm h]
  | cons kv rest ih =>
      obtain ⟨k, v⟩ := kv
      by_cases hk : k = key
      · subst hk
        simp [setA, lookupA, Ne.symm h]
      · simp [setA, lookupA, hk, ih]

theorem keys_setA {α : Type} (m : List (String × α)) (key : String)
    (f : Option α → α) :
    (setA m key f).map Prod.fst =
      if key ∈ m.map Prod.fst then m.map Prod.fst else m.map Prod.fst ++ [key] := by
  induction m with
  | nil => simp [setA]
  | cons kv rest ih =>
      obtain ⟨k, v⟩ := kv
      by_cases h : k = key
      · subst h; simp [setA]
      · by_cases hmem : key ∈ rest.map Prod.fst
        · simp [setA, h, ih, hmem, Ne.symm h]
        · simp [setA, h, ih, hmem, Ne.symm h]

theorem nodup_keys_setA {α : Type} (m : List (String × α)) (key : String)
    (f : Option α → α) (h : (m.map Prod.fst).Nodup) :
    ((setA m key f).map Prod.fst).Nodup := by
  rw [keys_setA]
  by_cases hmem : key ∈ m.map Prod.fst
  · simpa [hmem]
  · simpa [hmem, List.nodup_append] using h

theorem setA_notMem {α : Type} (m : List (String × α)) (key : String)
    (f : Option α → α) (h : key ∉ m.map Prod.fst) :
    setA m key f = m ++ [(key, f none)] := by
  induction m with
  | nil => simp [setA]
  | cons kv rest ih =>
      obtain ⟨k, v⟩ := kv
      simp only [List.map_cons, List.mem_cons] at h
      push_neg at h
      simp [setA, Ne.symm h.1, ih h.2]

/-- An entry invariant is preserved by a single dict update when the
update function preserves it. -/
theorem setA_inv {α : Type} (m : List (String × α)) (key : String)
    (f : Option α → α) (P : String → α → Prop)
    (hm : ∀ e ∈ m, P e.1 e.2)
    (hf : ∀ o : Option α, (∀ v, o = some v → P key v) → P key (f o)) :
    ∀ e ∈ setA m key f, P e.1 e.2 := by
  induction m with
  | nil =>
      intro e he
      simp only [setA, List.mem_singleton] at he
      subst he
      exact hf none (fun v h => by cases h)
  | cons kv rest ih =>
      obtain ⟨k, v⟩ := kv
      intro e he
      by_cases hk : k = key
      · subst hk
        simp only [setA, if_pos rfl] at he
        rcases List.mem_cons.mp he with rfl | he
        · exact hf (some v) (by rintro w hw; cases hw; exact hm (k, v) (List.mem_cons_self _ _))
        · exact hm _ (List.mem_cons_of_mem _ he)
      · simp only [setA, if_neg hk] at he
        rcases List.mem_cons.mp he with rfl | he
        · exact hm _ (List.mem_cons_self _ _)
        · exact ih (fun e' he' => hm _ (List.mem_cons_of_mem _ he')) e he

/-- An entry invariant is preserved by foldA when the update function
preserves it. -/
theorem foldA_inv {α β : Type} (keyOf : β → String) (f : β → Option α → α)
    (P : String → α → Prop) :
    ∀ (xs : List β) (init : List (String × α)),
      (∀ e ∈ init, P e.1 e.2) →
      (∀ b ∈ xs, ∀ o : Option α, (∀ v, o = some v → P (keyOf b) v) → P (keyOf b) (f b o)) →
      ∀ e ∈ foldA keyOf f init xs, P e.1 e.2 := by
  intro xs
  induction xs with
  | nil =>
      intro init hinit _ e he
      exact hinit e (by simpa [foldA] using he)
  | cons b rest ih =>
      intro init hinit hstep e he
      exact ih (setA init (keyOf b) (f b))
        (setA_inv init (keyOf b) (f b) P hinit (hstep b (List.mem_cons_self _ _)))
        (fun c hc => hstep c (List.mem_cons_of_mem _ hc))
        e (by simpa [foldA] using he)

theorem keys_foldA {α β : Type} (keyOf : β → String) (f : β → Option α → α) :
    ∀ (xs : List β) (init : List (String × α)),
      (foldA keyOf f init xs).map Prod.fst = addKeys (init.map Prod.fst) (xs.map keyOf) := by
  intro xs
  induction xs with
  | nil => intro init; simp [foldA, addKeys]
  | cons b rest ih =>
      intro init
      have h1 : foldA keyOf f init (b :: rest) = foldA keyOf f (setA init (keyOf b) (f b)) rest := by
        simp [foldA]
      rw [h1, ih, keys_setA]
      simp only [List.map_cons, addKeys]

theorem nodup_addKeys (ks : List String) :
    ∀ acc : List String, acc.Nodup → (addKeys acc ks).Nodup := by
  induction ks with
  | nil => intro acc h; simpa [addKeys]
  | cons k rest ih =>
      intro acc h
      simp only [addKeys]
      by_cases hk : k ∈ acc
      · simpa [hk] using ih acc h
      · refine ih _ ?_
        simpa [List.nodup_append, hk] using h

theorem lookupA_foldA {α β : Type} (keyOf : β → String) (f : β → Option α → α)
    (key : String) :
    ∀ (xs : List β) (init : List (String × α)),
      lookupA (foldA keyOf f init xs) key =
        (xs.filter (fun b => keyOf b = key)).foldl (fun o b => some (f b o)) (lookupA init key) := by
  intro xs
  induction xs with
  | nil => intro init; simp [foldA]
  | cons b rest ih =>
      intro init
      have h1 : foldA keyOf f init (b :: rest) = foldA keyOf f (setA init (keyOf b) (f b)) rest := by
        simp [foldA]
      by_cases hb : keyOf b = key
      · rw [h1, ih, List.filter_cons_of_pos (by simp [hb]), List.foldl_cons, hb,
          lookupA_setA_self]
      · rw [h1, ih, List.filter_cons_of_neg (by simp [hb]),
          lookupA_setA_ne _ _ _ _ (fun h => hb h.symm)]

theorem lookupA_eq_none {α : Type} (m : List (String × α)) (key : String) :
    lookupA m key = none ↔ key ∉ m.map Prod.fst := by
  induction m with
  | nil => simp [lookupA]
  | cons kv rest ih =>
      obtain ⟨k, v⟩ := kv
      by_cases h : k = key
      · subst h; simp [lookupA]
      · simp [lookupA, h, ih, Ne.symm h]

theorem mem_iff_lookupA {α : Type} (m : List (String × α)) (key : String) (v : α)
    (hnd : (m.map Prod.fst).Nodup) : (key, v) ∈ m ↔ lookupA m key = some v := by
  induction m with
  | nil => simp [lookupA]
  | cons kv rest ih =>
      obtain ⟨k, w⟩ := kv
      simp only [List.map_cons, List.nodup_cons] at hnd
      by_cases h : k = key
      · subst h
        simp only [lookupA, List.mem_cons, Prod.mk.injEq, true_and, eq_self_iff_true,
          if_true, Option.some.injEq]
        constructor
        · rintro (rfl | hmem)
          · rfl
          · exact absurd (List.mem_map_of_mem Prod.fst hmem) (by simpa using hnd.1)
        · rintro rfl; exact Or.inl rfl
      · simp only [lookupA, if_neg h, List.mem_cons, Prod.mk.injEq]
        rw [← ih hnd.2]
        constructor
        · rintro (⟨h1, h2⟩ | hmem)
          · exact absurd h1.symm h
          · exact hmem
        · exact Or.inr

/-! ## Stable descending sort: the model of sorted(..., reverse=True).
CPython's sorted is stable; with reverse=True it orders by descending
key and keeps the original order of equal keys. insertionSort with the
non-strict descending relation has exactly this behaviour. -/

/-- Descending comparison by a rational key. -/
def keyRel {α : Type} (key : α → Rat) : α → α → Prop := fun a b => key b ≤ key a

instance {α : Type} (key : α → Rat) : DecidableRel (keyRel key) :=
  fun a b => inferInstanceAs (Decidable (key b ≤ key a))

instance {α : Type} (key : α → Rat) : IsTotal α (keyRel key) :=
  ⟨fun a b => le_total (key b) (key a)⟩

instance {α : Type} (key : α → Rat) : IsTrans α (keyRel key) :=
  ⟨fun _ _ _ h1 h2 => le_trans h2 h1⟩

/-- sorted(xs, key=key, reverse=True). -/
def sortByKeyDesc {α : Type} (key : α → Rat) (l : List α) : List α :=
  List.insertionSort (keyRel key) l

theorem sortByKeyDesc_perm {α : Type} (key : α → Rat) (l : List α) :
    (sortByKeyDesc key l).Perm l :=
  List.perm_insertionSort (keyRel key) l

theorem sortByKeyDesc_sorted {α : Type} (key : α → Rat) (l : List α) :
    (sortByKeyDesc key l).Sorted (keyRel key) :=
  List.sorted_insertionSort (keyRel key) l

theorem filter_orderedInsert_of_key {α : Type} (key : α → Rat) (x : α) (s : Rat)
    (hx : key x = s) :
    ∀ m : List α, (List.orderedInsert (keyRel key) x m).filter (fun e => key e = s) =
      x :: m.filter (fun e => key e = s) := by
  intro m
  induction m with
  | nil => simp [List.orderedInsert, hx]
  | cons b rest ih =>
      by_cases hr : keyRel key x b
      · simp [List.orderedInsert, hr, hx]
      · have hb : ¬ (key b = s) := by
          intro hbs
          exact hr (show key b ≤ key x by rw [hbs, hx])
        simp only [List.orderedInsert, if_neg hr, List.filter_cons]
        simp [hb, ih]

theorem filter_orderedInsert_of_ne {α : Type} (key : α → Rat) (x : α) (s : Rat)
    (hx : key x ≠ s) :
    ∀ m : List α, (List.orderedInsert (keyRel key) x m).filter (fun e => key e = s) =
      m.filter (fun e => key e = s) := by
  intro m
  induction m with
  | nil => simp [List.orderedInsert, hx]
  | cons b rest ih =>
      by_cases hr : keyRel key x b
      · simp [List.orderedInsert, hr, hx]
      · simp only [List.orderedInsert, if_neg hr, List.filter_cons]
        by_cases hb : key b = s <;> simp [hb, ih]

/-- Stability of the descending sort: the subsequence of any fixed key
value is unchanged, i.e. equal keys keep their original order. -/
theorem sortByKeyDesc_filter_key {α : Type} (key : α → Rat) (s : Rat) :
    ∀ l : List α, (sortByKeyDesc key l).filter (fun e => key e = s) =
      l.filter (fun e => key e = s) := by
  intro l
  induction l with
  | nil => rfl
  | cons x rest ih =>
      show (List.orderedInsert (keyRel key) x (List.insertionSort (keyRel key) rest)).filter
          (fun e => key e = s) = _
      by_cases hx : key x = s
      · rw [filter_orderedInsert_of_key key x s hx]
        rw [show List.insertionSort (keyRel key) rest = sortByKeyDesc key rest from rfl, ih]
        simp [hx]
      · rw [filter_orderedInsert_of_ne key x s hx]
        rw [show List.insertionSort (keyRel key) rest = sortByKeyDesc key rest from rfl, ih]
        simp [hx]

theorem mem_sortByKeyDesc {α : Type} (key : α → Rat) (l : List α) (x : α) :
    x ∈ sortByKeyDesc key l ↔ x ∈ l :=
  (sortByKeyDesc_perm key l).mem_iff

theorem sortByKeyDesc_eq_of_sorted {α : Type} (key : α → Rat) (l : List α)
    (h : l.Sorted (keyRel key)) : sortByKeyDesc key l = l :=
  List.Sorted.insertionSort_eq h

/-! ## Reciprocal Rank Fusion: search.py RetrievalService._rrf_merge_documents. -/

/-- The RRF damping constant k = 60.0 of _rrf_merge_documents. -/
def rrfK : Rat := 60

/-- The RRF contribution 1.0 / (k + rank) of the document at 0-based
enumeration index i, i.e. at rank i + 1 (enumerate starts at 1). -/
def rrfContrib (i : Nat) : Rat := 1 / (rrfK + (i + 1 : Nat))

/-- One enumerated document folded into the accumulator:
scores[chunk_id] = scores.get(chunk_id, 0.0) + 1.0 / (k + rank), and
docs_by_chunk keeps the first-seen doc. The scores dict and the
docs_by_chunk dict of the source share their key set and insertion
order (both insert exactly on first sight of a chunk_id), so they are
combined here into one ordered association list from chunk_id to
(accumulated score, first-seen doc). -/
def rrfUpd (p : Nat × Doc) (old : Option (Rat × Doc)) : Rat × Doc :=
  match old with
  | none => (rrfContrib p.1, p.2)
  | some (s, d0) => (s + rrfContrib p.1, d0)

/-- for rank, doc in enumerate(ranked_docs, start=1): ... -/
def rrfAddList (m : List (String × (Rat × Doc))) (ranked_docs : List Doc) :
    List (String × (Rat × Doc)) :=
  foldA (fun p : Nat × Doc => doc_chunk_id p.2) rrfUpd m ranked_docs.enum

/-- for source_name, ranked_docs in ranked_lists: ... (source_by_chunk is
written by the source but never read afterwards, so it is not modeled). -/
def rrfFold (ranked_lists : List (String × List Doc)) : List (String × (Rat × Doc)) :=
  ranked_lists.foldl (fun m nl => rrfAddList m nl.2) []

/-- search.py RetrievalService._rrf_merge_documents: accumulate the RRF
scores, sort the (chunk_id, fused_score) items by descending score
(stably), and emit each chunk's first-seen doc with its score field
overwritten by the fused score. -/
def rrf_merge_documents (ranked_lists : List (String × List Doc)) : List Doc :=
  (sortByKeyDesc (fun e => e.2.1) (rrfFold ranked_lists)).map
    (fun e => { e.2.2 with score := some e.2.1 })

/-! Specification-side descriptions of what the fold computes, defined
directly from the input lists rather than by the dict fold. -/

/-- All input documents in traversal order. -/
def allDocs (ranked_lists : List (String × List Doc)) : List Doc :=
  (ranked_lists.map Prod.snd).flatten

/-- All distinct chunk ids in first-seen order across the input lists. -/
def firstSeenKeys (ranked_lists : List (String × List Doc)) : List String :=
  addKeys [] ((allDocs ranked_lists).map doc_chunk_id)

/-- The total RRF contribution of one ranked list to one chunk id. -/
def listScore (cid : String) (docs : List Doc) : Rat :=
  (docs.enum.map (fun p => if doc_chunk_id p.2 = cid then rrfContrib p.1 else 0)).sum

/-- The fused RRF score of a chunk id: the sum of 1/(K + rank) over all
its (list, rank) occurrences. -/
def rrfScore (ranked_lists : List (String × List Doc)) (cid : String) : Rat :=
  (ranked_lists.map (fun nl => listScore cid nl.2)).sum

/-- The first-seen document object for a chunk id. -/
def firstDocFor (ranked_lists : List (String × List Doc)) (cid : String) : Option Doc :=
  (allDocs ranked_lists).find? (fun d => doc_chunk_id d = cid)

theorem foldA_append {α β : Type} (keyOf : β → String) (f : β → Option α → α)
    (m : List (String × α)) (xs ys : List β) :
    foldA keyOf f m (xs ++ ys) = foldA keyOf f (foldA keyOf f m xs) ys := by
  simp [foldA, List.foldl_append]

/-- The fold over the named lists is the fold over the concatenation of
their enumerations (ranks restart per list, so items carry their own
per-list index). -/
theorem rrfFold_eq_foldA :
    ∀ (ls : List (String × List Doc)) (m : List (String × (Rat × Doc))),
      ls.foldl (fun acc nl => rrfAddList acc nl.2) m =
        foldA (fun p : Nat × Doc => doc_chunk_id p.2) rrfUpd m
          ((ls.map (fun nl => nl.2.enum)).flatten) := by
  intro ls
  induction ls with
  | nil => intro m; simp [foldA]
  | cons nl rest ih =>
      intro m
      simp only [List.foldl_cons, List.map_cons, List.flatten_cons, foldA_append]
      exact ih (rrfAddList m nl.2)

theorem flat_enum_map_snd (ls : List (String × List Doc)) :
    ((ls.map (fun nl => nl.2.enum)).flatten).map Prod.snd = allDocs ls := by
  rw [allDocs, List.map_flatten, List.map_map]
  congr 1
  exact List.map_congr_left (fun nl _ => List.enum_map_snd nl.2)

theorem flat_enum_keys (ls : List (String × List Doc)) :
    ((ls.map (fun nl => nl.2.enum)).flatten).map (fun p : Nat × Doc => doc_chunk_id p.2)
      = (allDocs ls).map doc_chunk_id := by
  rw [← flat_enum_map_snd ls, List.map_map]
  rfl

theorem keys_rrfFold (ls : List (String × List Doc)) :
    (rrfFold ls).map Prod.fst = firstSeenKeys ls := by
  rw [rrfFold, rrfFold_eq_foldA, keys_foldA, flat_enum_keys]
  rfl

theorem nodup_keys_rrfFold (ls : List (String × List Doc)) :
    ((rrfFold ls).map Prod.fst).Nodup := by
  rw [keys_rrfFold]
  exact nodup_addKeys _ [] List.nodup_nil

theorem sum_map_filter_eq {β : Type} (p : β → Bool) (g : β → Rat) :
    ∀ l : List β, ((l.filter p).map g).sum = (l.map (fun b => if p b then g b else 0)).sum := by
  intro l
  induction l with
  | nil => rfl
  | cons b rest ih =>
      by_cases hb : p b <;> simp [List.filter_cons, hb, ih]

theorem head_filter_eq_find {β : Type} (p : β → Bool) :
    ∀ l : List β, (l.filter p).head? = l.find? p := by
  intro l
  induction l with
  | nil => rfl
  | cons b rest ih =>
      by_cases hb : p b <;> simp [List.filter_cons, List.find?_cons, hb, ih]

theorem rrfUpd_foldl (ys : List (Nat × Doc)) :
    ∀ (s0 : Rat) (d0 : Doc),
      ys.foldl (fun o p => some (rrfUpd p o)) (some (s0, d0)) =
        some (s0 + (ys.map (fun p => rrfContrib p.1)).sum, d0) := by
  induction ys with
  | nil => intro s0 d0; simp
  | cons y rest ih =>
      intro s0 d0
      rw [List.foldl_cons]
      have h1 : some (rrfUpd y (some (s0, d0))) = some (s0 + rrfContrib y.1, d0) := rfl
      rw [h1, ih, List.map_cons, List.sum_cons, add_assoc]

/-- What the fold knows about one chunk id: nothing when the chunk never
occurs; otherwise the total of its contributions paired with its
first-seen doc. -/
theorem rrf_lookup (ls : List (String × List Doc)) (cid : String) :
    lookupA (rrfFold ls) cid =
      (firstDocFor ls cid).map (fun d => (rrfScore ls cid, d)) := by
  rw [rrfFold, rrfFold_eq_foldA, lookupA_foldA]
  have hscore :
      (((ls.map (fun nl => nl.2.enum)).flatten.filter
          (fun p : Nat × Doc => doc_chunk_id p.2 = cid)).map (fun p => rrfContrib p.1)).sum
        = rrfScore ls cid := by
    rw [sum_map_filter_eq]
    simp only [decide_eq_true_eq]
    rw [List.map_flatten, List.sum_flatten, List.map_map, List.map_map]
    rfl
  have hfirst :
      ((ls.map (fun nl => nl.2.enum)).flatten.filter
          (fun p : Nat × Doc => doc_chunk_id p.2 = cid)).head?.map Prod.snd
        = firstDocFor ls cid := by
    rw [firstDocFor, ← flat_enum_map_snd ls, ← head_filter_eq_find, List.filter_map,
      List.head?_map]
    rfl
  rcases hflt : (ls.map (fun nl => nl.2.enum)).flatten.filter
      (fun p : Nat × Doc => doc_chunk_id p.2 = cid) with _ | ⟨y, ys⟩
  · rw [hflt] at hfirst
    simp only [List.head?_nil, Option.map_none] at hfirst
    simp [lookupA, ← hfirst, hflt]
  · rw [hflt] at hscore hfirst
    rw [hflt]
    rw [List.foldl_cons]
    have h0 : some (rrfUpd y (lookupA ([] : List (String × (Rat × Doc))) cid))
        = some (rrfContrib y.1, y.2) := rfl
    rw [h0, rrfUpd_foldl, ← hfirst, ← hscore]
    simp

/-- Every entry of the fold keys its own first-seen doc: the doc stored
under a chunk id has that chunk id. -/
theorem rrfFold_entry_key (ls : List (String × List Doc)) :
    ∀ e ∈ rrfFold ls, doc_chunk_id e.2.2 = e.1 := by
  have h := foldA_inv (fun p : Nat × Doc => doc_chunk_id p.2) rrfUpd
    (fun cid v => doc_chunk_id v.2 = cid)
    ((ls.map (fun nl => nl.2.enum)).flatten) []
    (by intro e he; cases he)
    (by
      intro b _ o ho
      match o with
      | none => rfl
      | some (s, d0) => exact ho (s, d0) rfl)
  intro e he
  rw [rrfFold, rrfFold_eq_foldA] at he
  exact h e he

/-- Every entry of the fold carries the spec-side fused score of its key
and its key's first-seen doc. -/
theorem rrfFold_entry_value (ls : List (String × List Doc)) :
    ∀ e ∈ rrfFold ls,
      e.2.1 = rrfScore ls e.1 ∧ firstDocFor ls e.1 = some e.2.2 := by
  intro e he
  obtain ⟨cid, v⟩ := e
  have hl : lookupA (rrfFold ls) cid = some v :=
    (mem_iff_lookupA (rrfFold ls) cid v (nodup_keys_rrfFold ls)).mp he
  rw [rrf_lookup] at hl
  cases hfd : firstDocFor ls cid with
  | none => rw [hfd] at hl; simp at hl
  | some d0 =>
      rw [hfd] at hl
      have hl2 : (rrfScore ls cid, d0) = v := by
        have h3 : some (rrfScore ls cid, d0) = some v := hl
        exact Option.some.inj h3
      cases hl2
      exact ⟨rfl, rfl⟩

/-- Demo document with chunk_id "A" for the concrete RRF example. -/
def demoDocA : Doc := { meta_chunk_id := some "A", score := some (3/10) }

/-- Demo document with chunk_id "B" for the concrete RRF example. -/
def demoDocB : Doc := { meta_chunk_id := some "B", score := some (1/5) }

/-- C1: for every collection of named ranked input lists,
_rrf_merge_documents walks each list assigning ranks 1, 2, 3, ...,
accumulates 1/(K + rank) with K = 60 per (chunk_id, rank) pair
(rrfScore), keeps the first-seen document object per chunk_id with its
score overwritten by the fused score, and returns all distinct
chunk_ids sorted descending by fused score with ties broken by
first-seen order (stable sort). In particular, a chunk at rank 1 in
both of two lists gets fused score 2/(K+1) and is ranked ahead of a
chunk at rank 1 in only one list, whose score is 1/(K+1). -/
theorem rrf_merge_documents_spec (ranked_lists : List (String × List Doc)) :
    ((rrf_merge_documents ranked_lists).map doc_chunk_id).Perm (firstSeenKeys ranked_lists)
    ∧ ((rrf_merge_documents ranked_lists).map doc_chunk_id).Nodup
    ∧ (∀ d ∈ rrf_merge_documents ranked_lists,
        d.score = some (rrfScore ranked_lists (doc_chunk_id d))
        ∧ ∃ d0, firstDocFor ranked_lists (doc_chunk_id d) = some d0
            ∧ d = { d0 with score := some (rrfScore ranked_lists (doc_chunk_id d)) })
    ∧ (rrf_merge_documents ranked_lists).Sorted (keyRel docScore)
    ∧ (∀ s : Rat,
        ((rrf_merge_documents ranked_lists).filter (fun d => docScore d = s)).map doc_chunk_id
          = (firstSeenKeys ranked_lists).filter (fun cid => rrfScore ranked_lists cid = s))
    ∧ rrf_merge_documents [("a", [demoDocA]), ("b", [demoDocA]), ("c", [demoDocB])]
        = [{ demoDocA with score := some (2/61) }, { demoDocB with score := some (1/61) }]
    ∧ rrfScore [("a", [demoDocA]), ("b", [demoDocA]), ("c", [demoDocB])] "A" = 2 / (rrfK + 1)
    ∧ rrfScore [("a", [demoDocA]), ("b", [demoDocA]), ("c", [demoDocB])] "B" = 1 / (rrfK + 1)
    ∧ (1 : Rat) / (rrfK + 1) < 2 / (rrfK + 1) := by
  have hchunk_mk : ∀ e ∈ sortByKeyDesc (fun e : String × Rat × Doc => e.2.1) (rrfFold ranked_lists),
      doc_chunk_id { e.2.2 with score := some e.2.1 } = e.1 := by
    intro e he
    rw [doc_chunk_id_set_score]
    exact rrfFold_entry_key ranked_lists e ((mem_sortByKeyDesc _ _ _).mp he)
  have hmap : (rrf_merge_documents ranked_lists).map doc_chunk_id
      = (sortByKeyDesc (fun e : String × Rat × Doc => e.2.1) (rrfFold ranked_lists)).map Prod.fst := by
    rw [rrf_merge_documents, List.map_map]
    exact List.map_congr_left hchunk_mk
  have hpermkeys : ((rrf_merge_documents ranked_lists).map doc_chunk_id).Perm
      ((rrfFold ranked_lists).map Prod.fst) := by
    rw [hmap]
    exact (sortByKeyDesc_perm _ _).map Prod.fst
  refine ⟨?_, ?_, ?_, ?_, ?_, ?_, ?_, ?_, ?_⟩
  · rw [← keys_rrfFold]
    exact hpermkeys
  · exact hpermkeys.symm.nodup (nodup_keys_rrfFold ranked_lists)
  · intro d hd
    rw [rrf_merge_documents] at hd
    obtain ⟨e, he, hmk⟩ := List.mem_map.mp hd
    have hef : e ∈ rrfFold ranked_lists := (mem_sortByKeyDesc _ _ _).mp he
    have hval := rrfFold_entry_value ranked_lists e hef
    have hcd : doc_chunk_id d = e.1 := by rw [← hmk]; exact hchunk_mk e he
    constructor
    · rw [hcd, ← hmk]
      show some e.2.1 = some (rrfScore ranked_lists e.1)
      rw [hval.1]
    · refine ⟨e.2.2, ?_, ?_⟩
      · rw [hcd]; exact hval.2
      · rw [hcd, ← hmk, ← hval.1]
  · rw [rrf_merge_documents]
    refine List.Pairwise.map _ ?_ (sortByKeyDesc_sorted (fun e : String × Rat × Doc => e.2.1)
      (rrfFold ranked_lists))
    intro a b hab
    show docScore { b.2.2 with score := some b.2.1 } ≤ docScore { a.2.2 with score := some a.2.1 }
    rw [docScore_set_score, docScore_set_score]
    exact hab
  · intro s
    have ha : (rrf_merge_documents ranked_lists).filter (fun d => docScore d = s)
        = ((sortByKeyDesc (fun e : String × Rat × Doc => e.2.1) (rrfFold ranked_lists)).filter
            (fun e : String × Rat × Doc => e.2.1 = s)).map
              (fun e => { e.2.2 with score := some e.2.1 }) := by
      rw [rrf_merge_documents, List.filter_map]
      rfl
    rw [ha, sortByKeyDesc_filter_key, List.map_map]
    have hb : ((rrfFold ranked_lists).filter (fun e : String × Rat × Doc => e.2.1 = s)).map
          ((fun d : Doc => doc_chunk_id d) ∘ (fun e : String × Rat × Doc => { e.2.2 with score := some e.2.1 }))
        = ((rrfFold ranked_lists).filter (fun e : String × Rat × Doc => e.2.1 = s)).map Prod.fst := by
      refine List.map_congr_left ?_
      intro e he
      have hef : e ∈ rrfFold ranked_lists := (List.mem_filter.mp he).1
      show doc_chunk_id { e.2.2 with score := some e.2.1 } = e.1
      rw [doc_chunk_id_set_score]
      exact rrfFold_entry_key ranked_lists e hef
    rw [hb]
    have hc : (rrfFold ranked_lists).filter (fun e : String × Rat × Doc => e.2.1 = s)
        = (rrfFold ranked_lists).filter
            (fun e : String × Rat × Doc => rrfScore ranked_lists e.1 = s) := by
      refine List.filter_congr ?_
      intro e he
      rw [(rrfFold_entry_value ranked_lists e he).1]
    rw [hc, ← keys_rrfFold]
    exact (@List.filter_map (String × Rat × Doc) String
      (fun cid => decide (rrfScore ranked_lists cid = s)) Prod.fst (rrfFold ranked_lists)).symm
  · have e1 : rrfContrib 0 = 1/61 := by norm_num [rrfContrib, rrfK]
    have e2 : (1:Rat)/61 ≤ 1/61 + 1/61 := by norm_num
    have e3 : (1:Rat)/61 + 1/61 = 2/61 := by norm_num
    simp only [rrf_merge_documents, rrfFold, rrfAddList, foldA, List.foldl_cons,
      List.foldl_nil, List.enum, List.enumFrom, setA, rrfUpd, doc_chunk_id, demoDocA,
      demoDocB, sortByKeyDesc, List.insertionSort, List.orderedInsert, keyRel,
      List.map_cons, List.map_nil, e1]
    norm_num
  · have hA : doc_chunk_id demoDocA = "A" := rfl
    have hB : doc_chunk_id demoDocB = "B" := rfl
    simp only [rrfScore, listScore, List.enum, List.enumFrom, rrfContrib, rrfK,
      List.map_cons, List.map_nil, List.sum_cons, List.sum_nil, hA, hB]
    simp
    norm_num
  · have hA : doc_chunk_id demoDocA = "A" := rfl
    have hB : doc_chunk_id demoDocB = "B" := rfl
    simp only [rrfScore, listScore, List.enum, List.enumFrom, rrfContrib, rrfK,
      List.map_cons, List.map_nil, List.sum_cons, List.sum_nil, hA, hB]
    simp
  · rw [rrfK]
    norm_num

/-! ## The search finalization (search.py lines 455-500) and the dense
branch (RetrievalService._run_pipeline_dense). -/

/-- models.py SearchResult / the record shaped in the merged loop of
search. -/
structure SearchResult where
  chunk_id : String
  doc_id : String
  score : Rat
  snippet : String
  title : String
  url : String
  source : String
  language : String
  published_at : Option String
deriving DecidableEq, Repr

/-- The record search builds for one doc (the merged[chunk_id]
assignment): str(...) renders with the dict-get defaults shown, and
the snippet truncates content to 420 characters. -/
def mkResult (d : Doc) : SearchResult :=
  { chunk_id := doc_chunk_id d
    doc_id := d.meta_doc_id.getD "unknown"
    score := docScore d
    snippet := (d.content.getD "").take 420
    title := d.meta_title.getD ""
    url := d.meta_url.getD ""
    source := d.meta_source.getD ""
    language := d.meta_language.getD "en"
    published_at := d.meta_published_at }

/-- The language test of search: a doc is skipped iff the filter is
truthy, meta.get("language") is truthy, and the two differ; this
function says whether the doc is kept. -/
def passesLanguage (language : Option String) (d : Doc) : Bool :=
  match language with
  | none => true
  | some l =>
      if l = "" then true
      else
        match d.meta_language with
        | none => true
        | some ml => if ml = "" then true else ml = l

/-- The per-doc update of the merged loop: a first occurrence is
stored; an existing record with score >= the new score is kept
(continue), else overwritten in place. -/
def searchUpd (d : Doc) (old : Option SearchResult) : SearchResult :=
  match old with
  | none => mkResult d
  | some e => if docScore d ≤ e.score then e else mkResult d

/-- The merged OrderedDict loop of search: docs failing the language
test are skipped; per chunk_id searchUpd is applied. -/
def searchMerge (language : Option String) (docs : List Doc) :
    List (String × SearchResult) :=
  docs.foldl
    (fun m d =>
      if passesLanguage language d then setA m (doc_chunk_id d) (searchUpd d) else m) []

/-- Python list slicing xs[:k], including the from-the-end meaning of a
negative k. -/
def pySliceTo {α : Type} (xs : List α) (k : Int) : List α :=
  if 0 ≤ k then xs.take k.toNat else xs.take (xs.length + k).toNat

/-- search.py: sorted_results = sorted(merged.values(), reverse=True)
and return results[:k]. -/
def finalizeResults (docs : List Doc) (language : Option String) (k : Int) :
    List SearchResult :=
  pySliceTo (sortByKeyDesc (fun r => r.score) ((searchMerge language docs).map Prod.snd)) k

/-- search.py line 455: k = min(top_k or settings.default_top_k,
settings.max_top_k); a Python falsy top_k (None or 0) falls back to
the default. -/
def resolveFinalTopK (default_top_k max_top_k : Int) (top_k : Option Int) : Int :=
  min
    (match top_k with
     | none => default_top_k
     | some v => if v = 0 then default_top_k else v)
    max_top_k

/-- models.py SearchRequest.top_k: Field(default=None, ge=1, le=20).
pydantic rejects a request whose top_k fails this check. -/
def searchRequestTopKOk (top_k : Option Int) : Bool :=
  match top_k with
  | none => true
  | some v => 1 ≤ v ∧ v ≤ 20

/-- search.py lines 463-471: with a nonempty dense list, RRF-fuse the
two named lists, else pass the bm25 list through unchanged. -/
def search_docs (bm25_docs dense_docs : List Doc) : List Doc :=
  if dense_docs = [] then bm25_docs
  else rrf_merge_documents [("bm25", bm25_docs), ("dense", dense_docs)]

/-- The merged-loop-to-response tail of search applied to the chosen
docs. -/
def search_results (bm25_docs dense_docs : List Doc) (language : Option String)
    (k : Int) : List SearchResult :=
  finalizeResults (search_docs bm25_docs dense_docs) language k

/-- The fates of the dense pathway in _run_pipeline_dense: dense
disabled in settings, dense pipeline never built, the pipeline run
raising an exception, or returning documents. -/
inductive DenseOutcome where
  | disabled
  | notBuilt
  | failure (err : String)
  | ok (docs : List Doc)

/-- search.py RetrievalService._run_pipeline_dense: returns [] unless
dense is enabled, the pipeline was built, and the run succeeds; an
exception during the run is caught and yields []. -/
def run_pipeline_dense (o : DenseOutcome) : List Doc :=
  match o with
  | .disabled => []
  | .notBuilt => []
  | .failure _ => []
  | .ok docs => docs

/-! ## Fusion of a single list with pairwise distinct chunk ids. -/

theorem foldA_cons {α β : Type} (keyOf : β → String) (f : β → Option α → α)
    (m : List (String × α)) (y : β) (ys : List β) :
    foldA keyOf f m (y :: ys) = foldA keyOf f (setA m (keyOf y) (f y)) ys := by
  simp [foldA]

theorem le_fst_of_mem_enumFrom {α : Type} :
    ∀ (l : List α) (k : Nat) (q : Nat × α), q ∈ List.enumFrom k l → k ≤ q.1 := by
  intro l
  induction l with
  | nil => intro k q hq; cases hq
  | cons x rest ih =>
      intro k q hq
      rcases List.mem_cons.mp hq with rfl | hq
      · exact le_refl k
      · exact le_trans (Nat.le_succ k) (ih (k + 1) q hq)

theorem pairwise_fst_lt_enumFrom {α : Type} :
    ∀ (l : List α) (k : Nat), (List.enumFrom k l).Pairwise (fun p q => p.1 < q.1) := by
  intro l
  induction l with
  | nil => intro k; exact List.Pairwise.nil
  | cons x rest ih =>
      intro k
      refine List.Pairwise.cons ?_ (ih (k + 1))
      intro q hq
      exact lt_of_lt_of_le (Nat.lt_succ_self k) (le_fst_of_mem_enumFrom rest (k + 1) q hq)

theorem rrfContrib_antitone {i j : Nat} (h : i < j) : rrfContrib j ≤ rrfContrib i := by
  rw [rrfContrib, rrfContrib, rrfK]
  refine one_div_le_one_div_of_le (by positivity) ?_
  push_cast
  have hij : (i : Rat) ≤ (j : Rat) := by exact_mod_cast le_of_lt h
  linarith

/-- Folding one list whose chunk ids are fresh and pairwise distinct
appends one entry per document, in order, holding that document and
its single rank contribution. -/
theorem foldA_rrf_fresh :
    ∀ (docs : List Doc) (n : Nat) (m : List (String × (Rat × Doc))),
      (docs.map doc_chunk_id).Nodup →
      (∀ d ∈ docs, doc_chunk_id d ∉ m.map Prod.fst) →
      foldA (fun p : Nat × Doc => doc_chunk_id p.2) rrfUpd m (List.enumFrom n docs)
        = m ++ (List.enumFrom n docs).map
            (fun p => (doc_chunk_id p.2, (rrfContrib p.1, p.2))) := by
  intro docs
  induction docs with
  | nil => intro n m _ _; simp [foldA, List.enumFrom]
  | cons d rest ih =>
      intro n m hnd hfresh
      have hstep : List.enumFrom n (d :: rest) = (n, d) :: List.enumFrom (n + 1) rest := rfl
      rw [hstep, foldA_cons]
      have hset : setA m (doc_chunk_id d) (rrfUpd (n, d))
          = m ++ [(doc_chunk_id d, (rrfContrib n, d))] := by
        rw [setA_notMem m (doc_chunk_id d) (rrfUpd (n, d))
          (hfresh d (List.mem_cons_self _ _))]
        rfl
      rw [hset]
      simp only [List.map_cons, List.nodup_cons] at hnd
      have hfresh2 : ∀ x ∈ rest,
          doc_chunk_id x ∉ (m ++ [(doc_chunk_id d, (rrfContrib n, d))]).map Prod.fst := by
        intro x hx
        rw [List.map_append]
        intro hmem
        rcases List.mem_append.mp hmem with hmem | hmem
        · exact hfresh x (List.mem_cons_of_mem _ hx) hmem
        · simp only [List.map_cons, List.map_nil, List.mem_singleton] at hmem
          exact hnd.1 (hmem ▸ List.mem_map_of_mem doc_chunk_id hx)
      rw [ih (n + 1) _ hnd.2 hfresh2, List.append_assoc]
      rfl

/-- The per-document entries of a single list are already strictly
sorted by descending RRF score (rank 1 scores above rank 2, and so
on), so the stable descending sort leaves them unchanged. -/
theorem sorted_single_entries (docs : List Doc) (n : Nat) :
    ((List.enumFrom n docs).map
        (fun p => (doc_chunk_id p.2, (rrfContrib p.1, p.2)))).Sorted
      (keyRel (fun e : String × Rat × Doc => e.2.1)) := by
  refine List.Pairwise.map _ ?_ (pairwise_fst_lt_enumFrom docs n)
  intro p q hpq
  exact rrfContrib_antitone hpq

/-- C9: fusing a ranked list L (pairwise distinct chunk ids) with an
empty second list yields exactly L's chunk_id order; and inside
search, an empty dense list skips fusion entirely and passes the bm25
list through unchanged, so the two paths agree on ordering. -/
theorem single_list_fusion_spec (name1 name2 : String) (L : List Doc)
    (hnd : (L.map doc_chunk_id).Nodup) :
    (rrf_merge_documents [(name1, L), (name2, [])]).map doc_chunk_id = L.map doc_chunk_id
    ∧ search_docs L [] = L := by
  constructor
  · have hfold : rrfFold [(name1, L), (name2, [])]
        = (List.enumFrom 0 L).map (fun p => (doc_chunk_id p.2, (rrfContrib p.1, p.2))) := by
      rw [rrfFold, rrfFold_eq_foldA]
      have hflat : (([(name1, L), (name2, [])].map (fun nl => nl.2.enum)).flatten)
          = List.enumFrom 0 L := by
        simp [List.enum]
      rw [hflat]
      have h := foldA_rrf_fresh L 0 [] hnd (by intro d _ h; cases h)
      rw [h]
      rfl
    rw [rrf_merge_documents, hfold,
      sortByKeyDesc_eq_of_sorted _ _ (sorted_single_entries L 0), List.map_map, List.map_map]
    have h2 : ∀ p ∈ List.enumFrom 0 L,
        ((doc_chunk_id ∘ (fun e : String × Rat × Doc => { e.2.2 with score := some e.2.1 }))
          ∘ (fun p : Nat × Doc => (doc_chunk_id p.2, (rrfContrib p.1, p.2)))) p
          = (doc_chunk_id ∘ Prod.snd) p := by
      intro p _
      show doc_chunk_id { p.2 with score := some (rrfContrib p.1) } = doc_chunk_id p.2
      rw [doc_chunk_id_set_score]
    rw [List.map_congr_left h2, ← List.map_map]
    rw [show List.enumFrom 0 L = L.enum from rfl, List.enum_map_snd]
  · rfl

theorem single_list_fusion_spec_witness :
    (([demoDocA, demoDocB].map doc_chunk_id).Nodup)
    ∧ ((rrf_merge_documents [("bm25", [demoDocA, demoDocB]), ("dense", [])]).map doc_chunk_id
          = [demoDocA, demoDocB].map doc_chunk_id
      ∧ search_docs [demoDocA, demoDocB] [] = [demoDocA, demoDocB]) :=
  ⟨by decide, single_list_fusion_spec "bm25" "dense" [demoDocA, demoDocB] (by decide)⟩

/-! ## Result finalization inside search (claim C2). -/

/-- A loop that skips elements failing a test is the unconditional loop
over the filtered list. -/
theorem searchMerge_eq_foldA (language : Option String) :
    ∀ (docs : List Doc) (m : List (String × SearchResult)),
      docs.foldl
        (fun m d =>
          if passesLanguage language d then setA m (doc_chunk_id d) (searchUpd d) else m) m
        = foldA doc_chunk_id searchUpd m (docs.filter (passesLanguage language)) := by
  intro docs
  induction docs with
  | nil => intro m; simp [foldA]
  | cons d rest ih =>
      intro m
      rw [List.foldl_cons]
      by_cases hd : passesLanguage language d
      · rw [if_pos hd, List.filter_cons_of_pos hd, foldA_cons, ih]
      · rw [if_neg hd, List.filter_cons_of_neg (by simpa using hd), ih]

theorem searchMerge_entries (language : Option String) (docs : List Doc) :
    ∀ e ∈ searchMerge language docs,
      e.2.chunk_id = e.1
      ∧ ∃ d ∈ docs, passesLanguage language d = true ∧ e.2 = mkResult d := by
  intro e he
  rw [searchMerge, searchMerge_eq_foldA] at he
  refine foldA_inv doc_chunk_id searchUpd
    (fun cid r => r.chunk_id = cid ∧ ∃ d ∈ docs, passesLanguage language d = true ∧ r = mkResult d)
    (docs.filter (passesLanguage language)) [] (by intro e' he'; cases he') ?_ e he
  intro b hb o ho
  have hbd : b ∈ docs ∧ passesLanguage language b = true := List.mem_filter.mp hb
  match o with
  | none => exact ⟨rfl, b, hbd.1, hbd.2, rfl⟩
  | some e' =>
      show (searchUpd b (some e')).chunk_id = doc_chunk_id b
        ∧ ∃ d ∈ docs, passesLanguage language d = true ∧ searchUpd b (some e') = mkResult d
      by_cases hsc : docScore b ≤ e'.score
      · have hee : searchUpd b (some e') = e' := by simp [searchUpd, hsc]
        rw [hee]
        exact ho e' rfl
      · have hee : searchUpd b (some e') = mkResult b := by simp [searchUpd, hsc]
        rw [hee]
        exact ⟨rfl, b, hbd.1, hbd.2, rfl⟩

theorem nodup_keys_searchMerge (language : Option String) (docs : List Doc) :
    ((searchMerge language docs).map Prod.fst).Nodup := by
  rw [searchMerge, searchMerge_eq_foldA, keys_foldA]
  exact nodup_addKeys _ [] List.nodup_nil

/-- C2 (amended): for every fused-hit list, language filter and top_k,
the finalization returns at most top_k results (for top_k >= 1, as
request validation guarantees), never returns the same chunk_id twice,
and is ordered descending by score; every returned result is the
shaped record of an input doc that passed the language test, and the
language test lets through exactly the docs whose language metadata is
missing or empty (they bypass the filter) or equal to the filter. -/
theorem finalize_results_spec (docs : List Doc) (language : Option String) (k : Int) :
    (1 ≤ k → (finalizeResults docs language k).length ≤ k.toNat)
    ∧ ((finalizeResults docs language k).map SearchResult.chunk_id).Nodup
    ∧ (finalizeResults docs language k).Sorted (keyRel (fun r : SearchResult => r.score))
    ∧ (∀ r ∈ finalizeResults docs language k,
        ∃ d ∈ docs, passesLanguage language d = true ∧ r = mkResult d)
    ∧ (∀ (l : String) (d : Doc), l ≠ "" →
        (passesLanguage (some l) d = true ↔
          d.meta_language = none ∨ d.meta_language = some "" ∨ d.meta_language = some l)) := by
  have hslice : finalizeResults docs language k
      = pySliceTo (sortByKeyDesc (fun r => r.score) ((searchMerge language docs).map Prod.snd)) k :=
    rfl
  have hsub : (finalizeResults docs language k).Sublist
      (sortByKeyDesc (fun r => r.score) ((searchMerge language docs).map Prod.snd)) := by
    rw [hslice, pySliceTo]
    by_cases h0 : (0 : Int) ≤ k
    · rw [if_pos h0]; exact List.take_sublist _ _
    · rw [if_neg h0]; exact List.take_sublist _ _
  refine ⟨?_, ?_, ?_, ?_, ?_⟩
  · intro hk
    rw [hslice, pySliceTo, if_pos (le_trans (by norm_num) hk)]
    exact le_trans (List.length_take_le _ _) (le_refl _)
  · have hkeys : ((searchMerge language docs).map Prod.snd).map SearchResult.chunk_id
        = (searchMerge language docs).map Prod.fst := by
      rw [List.map_map]
      exact List.map_congr_left (fun e he => (searchMerge_entries language docs e he).1)
    have hperm := (sortByKeyDesc_perm (fun r : SearchResult => r.score)
      ((searchMerge language docs).map Prod.snd)).map SearchResult.chunk_id
    have hnd : ((sortByKeyDesc (fun r : SearchResult => r.score)
        ((searchMerge language docs).map Prod.snd)).map SearchResult.chunk_id).Nodup :=
      hperm.symm.nodup (by rw [hkeys]; exact nodup_keys_searchMerge language docs)
    exact List.Nodup.sublist (hsub.map SearchResult.chunk_id) hnd
  · exact List.Pairwise.sublist hsub
      (sortByKeyDesc_sorted (fun r : SearchResult => r.score)
        ((searchMerge language docs).map Prod.snd))
  · intro r hr
    have hr2 : r ∈ (searchMerge language docs).map Prod.snd :=
      (mem_sortByKeyDesc _ _ _).mp (hsub.mem hr)
    obtain ⟨e, he, hre⟩ := List.mem_map.mp hr2
    obtain ⟨_, d, hd, hpass, hrd⟩ := searchMerge_entries language docs e he
    exact ⟨d, hd, hpass, by rw [← hre, hrd]⟩
  · intro l d hl
    cases hml : d.meta_language with
    | none => simp [passesLanguage, hl, hml]
    | some ml =>
        by_cases hml0 : ml = ""
        · subst hml0
          simp [passesLanguage, hl, hml]
        · simp [passesLanguage, hl, hml, hml0]

/-- A fused hit with no language metadata: it bypasses the language
filter and surfaces with the default rendered language "en". -/
def noLangDoc : Doc := { meta_chunk_id := some "c1", content := some "body", score := some 1 }

/-- C2 counterexample: with the language filter "es" supplied, search
finalization returns a result whose language is "en" (the doc carries
no language metadata, so the filter is bypassed and the rendered
language defaults to "en"), contradicting the claim that no returned
result's language ever differs from the filter. -/
theorem finalize_language_counterexample :
    finalizeResults [noLangDoc] (some "es") 5 = [mkResult noLangDoc]
    ∧ (mkResult noLangDoc).language = "en"
    ∧ "en" ≠ "es" :=
  ⟨rfl, rfl, by decide⟩

/-- C6: a dense pathway that is disabled, never built, or raises at
request time contributes an empty list; search then bypasses fusion
and returns exactly the lexical-only finalization, so no error
propagates to the caller because of the dense pathway alone. -/
theorem dense_degradation_spec (err : String) (bm25_docs : List Doc)
    (language : Option String) (k : Int) :
    run_pipeline_dense DenseOutcome.disabled = []
    ∧ run_pipeline_dense DenseOutcome.notBuilt = []
    ∧ run_pipeline_dense (DenseOutcome.failure err) = []
    ∧ search_results bm25_docs (run_pipeline_dense (DenseOutcome.failure err)) language k
        = finalizeResults bm25_docs language k
    ∧ search_results bm25_docs (run_pipeline_dense DenseOutcome.notBuilt) language k
        = finalizeResults bm25_docs language k
    ∧ search_results bm25_docs (run_pipeline_dense DenseOutcome.disabled) language k
        = finalizeResults bm25_docs language k
    ∧ search_docs bm25_docs [] = bm25_docs :=
  ⟨rfl, rfl, rfl, rfl, rfl, rfl, rfl⟩

/-! ## The chunker: indexing.py _chunk_text, modeled on List Char. -/

/-- Python text.split(): the maximal runs of non-whitespace characters
(splitting at every whitespace character leaves empty pieces between
adjacent separators; Python drops them). -/
def pySplitWS (text : List Char) : List (List Char) :=
  (text.splitOnP Char.isWhitespace).filter (fun w => w ≠ [])

/-- The normalization " ".join(text.split()): whitespace runs collapse
to single spaces, ends trimmed. -/
def normalizeWS (text : List Char) : List Char :=
  List.intercalate [' '] (pySplitWS text)

/-- Python slicing l[start:stop] for a natural start, including the
from-the-end meaning of a negative stop index. -/
def pySliceFromTo (l : List Char) (start : Nat) (stop : Int) : List Char :=
  let stopN : Nat := if stop < 0 then (l.length + stop).toNat else stop.toNat
  (l.take stopN).drop start

/-- The while loop of _chunk_text: end = min(text_len, start + chunk_size),
append normalized[start:end], break once end reaches text_len, else
advance start by step = max(1, chunk_size - chunk_overlap). The step is
at least 1, so norm.length - start decreases and the loop terminates
for every integer parameter pair. -/
def chunkLoop (norm : List Char) (chunk_size chunk_overlap : Int) (start : Nat) :
    List (List Char) :=
  if h : start < norm.length then
    let e : Int := min (norm.length : Int) (start + chunk_size)
    let piece := pySliceFromTo norm start e
    if (norm.length : Int) ≤ e then [piece]
    else piece :: chunkLoop norm chunk_size chunk_overlap
      (start + (max 1 (chunk_size - chunk_overlap)).toNat)
  else []
termination_by norm.length - start
decreasing_by
  have h1 : (1 : Int) ≤ max 1 (chunk_size - chunk_overlap) := le_max_left _ _
  have h2 : 1 ≤ (max 1 (chunk_size - chunk_overlap)).toNat := by omega
  omega

/-- indexing.py _chunk_text: normalize whitespace; an empty normalized
text yields no chunks; otherwise run the window loop from 0. -/
def chunk_text (text : List Char) (chunk_size chunk_overlap : Int) : List (List Char) :=
  let normalized := normalizeWS text
  if normalized = [] then [] else chunkLoop normalized chunk_size chunk_overlap 0

/-- The same loop with an explicit iteration budget: none means the
budget ran out before the loop exited. -/
def chunkLoopFuel (norm : List Char) (chunk_size chunk_overlap : Int) :
    Nat → Nat → Option (List (List Char))
  | 0, _ => none
  | fuel + 1, start =>
      if start < norm.length then
        let e : Int := min (norm.length : Int) (start + chunk_size)
        let piece := pySliceFromTo norm start e
        if (norm.length : Int) ≤ e then some [piece]
        else
          match chunkLoopFuel norm chunk_size chunk_overlap fuel
              (start + (max 1 (chunk_size - chunk_overlap)).toNat) with
          | none => none
          | some rest => some (piece :: rest)
      else some []

/-- _chunk_text with the loop budgeted by normalized length plus one. -/
def chunk_text_fuel (text : List Char) (chunk_size chunk_overlap : Int) :
    Option (List (List Char)) :=
  let normalized := normalizeWS text
  if normalized = [] then some []
  else chunkLoopFuel normalized chunk_size chunk_overlap (normalized.length + 1) 0

theorem chunkLoopFuel_reaches (norm : List Char) (size ov : Int) :
    ∀ (fuel : Nat) (start : Nat), norm.length - start < fuel →
      chunkLoopFuel norm size ov fuel start = some (chunkLoop norm size ov start) := by
  intro fuel
  induction fuel with
  | zero => intro start h; omega
  | succ fuel ih =>
      intro start h
      rw [chunkLoop]
      by_cases hlt : start < norm.length
      · rw [chunkLoopFuel, dif_pos hlt, if_pos hlt]
        by_cases hend : (norm.length : Int) ≤ min (norm.length : Int) (start + size)
        · rw [if_pos hend, if_pos hend]
        · rw [if_neg hend, if_neg hend]
          have h1 : (1 : Int) ≤ max 1 (size - ov) := le_max_left _ _
          have h2 : 1 ≤ (max 1 (size - ov)).toNat := by omega
          rw [ih (start + (max 1 (size - ov)).toNat) (by omega)]
      · rw [chunkLoopFuel, dif_neg hlt, if_neg hlt]

/-- C10: the chunker terminates on every text and every integer pair
(chunk_size, chunk_overlap), spec preconditions violated or not: the
advance step max(1, chunk_size - chunk_overlap) is at least 1, and the
loop, run with a budget of normalized length + 1 iterations, exits
within the budget and returns the chunker's value. -/
theorem chunk_text_terminates (text : List Char) (chunk_size chunk_overlap : Int) :
    chunk_text_fuel text chunk_size chunk_overlap
      = some (chunk_text text chunk_size chunk_overlap)
    ∧ 1 ≤ (max 1 (chunk_size - chunk_overlap)).toNat := by
  constructor
  · rw [chunk_text_fuel, chunk_text]
    by_cases hn : normalizeWS text = []
    · rw [if_pos hn, if_pos hn]
    · rw [if_neg hn, if_neg hn]
      exact chunkLoopFuel_reaches (normalizeWS text) chunk_size chunk_overlap
        ((normalizeWS text).length + 1) 0 (by omega)
  · have h1 : (1 : Int) ≤ max 1 (chunk_size - chunk_overlap) := le_max_left _ _
    omega

theorem take_min_length {α : Type} (l : List α) (k : Nat) :
    l.take (min l.length k) = l.take k := by
  rcases le_total l.length k with h | h
  · rw [min_eq_left h, List.take_of_length_le h, List.take_of_length_le (le_refl _)]
  · rw [min_eq_right h]

theorem chunkLoop_piece (norm : List Char) (size : Int) (start : Nat)
    (hs : 0 < size) :
    pySliceFromTo norm start (min (norm.length : Int) (start + size))
      = (norm.drop start).take size.toNat := by
  rw [pySliceFromTo]
  have he0 : ¬ (min (norm.length : Int) (start + size) < 0) := by omega
  rw [if_neg he0, List.drop_take]
  have heq : (min (norm.length : Int) (start + size)).toNat - start
      = min ((norm.drop start).length) size.toNat := by
    rw [List.length_drop]
    omega
  rw [heq, take_min_length]

/-- Everything claim C4 needs about one run of the window loop from any
start position, proved together by induction on the remaining length:
the loop output is nonempty with head normalized[start : start+size];
dropping the first overlap characters of every chunk after the first
and concatenating reconstructs normalized[start:] (exact cover, no
gaps); every chunk is at most chunk_size long; every non-final chunk is
exactly chunk_size long; and each consecutive pair overlaps in exactly
the chunk_overlap characters shared at their boundary. -/
theorem chunkLoop_spec (norm : List Char) (size ov : Int)
    (hs : 0 < size) (ho0 : 0 ≤ ov) (ho : ov < size) :
    ∀ (fuel start : Nat), norm.length - start ≤ fuel → start < norm.length →
      (chunkLoop norm size ov start ≠ []
        ∧ (chunkLoop norm size ov start).headD [] = (norm.drop start).take size.toNat)
      ∧ ((chunkLoop norm size ov start).headD []
          ++ (((chunkLoop norm size ov start).tail).map (List.drop ov.toNat)).join
            = norm.drop start)
      ∧ (∀ c ∈ chunkLoop norm size ov start, c.length ≤ size.toNat)
      ∧ (∀ i, i + 1 < (chunkLoop norm size ov start).length →
          ((chunkLoop norm size ov start).getD i []).length = size.toNat)
      ∧ (∀ i, i + 1 < (chunkLoop norm size ov start).length →
          ((chunkLoop norm size ov start).getD i []).drop (size.toNat - ov.toNat)
            = ((chunkLoop norm size ov start).getD (i + 1) []).take ov.toNat) := by
  intro fuel
  induction fuel with
  | zero => intro start h1 h2; omega
  | succ fuel ih =>
      intro start hfuel hstart
      have hstep : (max 1 (size - ov)).toNat = size.toNat - ov.toNat := by omega
      by_cases hend : (norm.length : Int) ≤ min (norm.length : Int) (start + size)
      · have hloop : chunkLoop norm size ov start = [(norm.drop start).take size.toNat] := by
          rw [chunkLoop, dif_pos hstart, if_pos hend, chunkLoop_piece norm size start hs]
        have hlen : (norm.drop start).length ≤ size.toNat := by
          rw [List.length_drop]
          omega
        refine ⟨⟨by simp [hloop], by rw [hloop]; rfl⟩, ?_, ?_, ?_, ?_⟩
        · rw [hloop]
          show (norm.drop start).take size.toNat ++ [] = norm.drop start
          rw [List.append_nil, List.take_of_length_le hlen]
        · intro c hc
          rw [hloop, List.mem_singleton] at hc
          subst hc
          rw [List.length_take, List.length_drop]
          omega
        · intro i hi
          rw [hloop] at hi
          simp at hi
        · intro i hi
          rw [hloop] at hi
          simp at hi
      · have hgap : size.toNat < norm.length - start := by omega
        have hov1 : 1 ≤ size.toNat - ov.toNat := by omega
        have hloop : chunkLoop norm size ov start
            = (norm.drop start).take size.toNat
              :: chunkLoop norm size ov (start + (size.toNat - ov.toNat)) := by
          rw [chunkLoop, dif_pos hstart, if_neg hend, chunkLoop_piece norm size start hs, hstep]
        have hstart2 : start + (size.toNat - ov.toNat) < norm.length := by omega
        have hfuel2 : norm.length - (start + (size.toNat - ov.toNat)) ≤ fuel := by omega
        have IH := ih (start + (size.toNat - ov.toNat)) hfuel2 hstart2
        rcases hr : chunkLoop norm size ov (start + (size.toNat - ov.toNat)) with _ | ⟨hd, tl⟩
        · exact absurd hr IH.1.1
        rw [hr] at IH hloop
        have hhd : hd = (norm.drop (start + (size.toNat - ov.toNat))).take size.toNat := IH.1.2
        have hhdlen : ov.toNat < hd.length := by
          rw [hhd, List.length_take, List.length_drop]
          omega
        refine ⟨⟨by simp [hloop], by rw [hloop]; rfl⟩, ?_, ?_, ?_, ?_⟩
        · rw [hloop]
          show (norm.drop start).take size.toNat
              ++ (hd.drop ov.toNat ++ ((tl.map (List.drop ov.toNat)).join)) = norm.drop start
          have hrec : hd ++ ((tl.map (List.drop ov.toNat)).join)
              = norm.drop (start + (size.toNat - ov.toNat)) := IH.2.1
          have hsplit : hd.drop ov.toNat ++ ((tl.map (List.drop ov.toNat)).join)
              = (hd ++ ((tl.map (List.drop ov.toNat)).join)).drop ov.toNat := by
            rw [List.drop_append_of_le_length (le_of_lt hhdlen)]
          rw [hsplit, hrec, List.drop_drop]
          have heq2 : start + (size.toNat - ov.toNat) + ov.toNat = start + size.toNat := by omega
          rw [heq2, ← List.drop_drop, List.take_append_drop]
        · intro c hc
          rw [hloop] at hc
          rcases List.mem_cons.mp hc with rfl | hc
          · rw [List.length_take, List.length_drop]
            omega
          · exact IH.2.2.1 c (hr ▸ hc)
        · intro i hi
          rw [hloop] at hi ⊢
          cases i with
          | zero =>
              rw [List.getD_cons_zero, List.length_take, List.length_drop]
              omega
          | succ j =>
              rw [List.getD_cons_succ]
              simp only [List.length_cons] at hi
              exact IH.2.2.2.1 j (by simp only [List.length_cons]; omega)
        · intro i hi
          rw [hloop] at hi ⊢
          cases i with
          | zero =>
              rw [List.getD_cons_zero, List.getD_cons_succ]
              rw [List.getD_cons_zero, hhd]
              rw [List.drop_take]
              have heq3 : size.toNat - (size.toNat - ov.toNat) = ov.toNat := by omega
              rw [heq3, List.drop_drop, List.take_take]
              have heq4 : min ov.toNat size.toNat = ov.toNat := by omega
              rw [heq4]
          | succ j =>
              rw [List.getD_cons_succ, List.getD_cons_succ]
              simp only [List.length_cons] at hi
              exact IH.2.2.2.2 j (by simp only [List.length_cons]; omega)

/-- C4: for every text, chunk_size > 0 and 0 <= chunk_overlap <
chunk_size, the chunker's output exactly covers the
whitespace-normalized text with no gaps (the first chunk, followed by
every later chunk with its leading chunk_overlap characters removed,
concatenates back to the normalized text), every chunk is at most
chunk_size characters, every chunk but the final one is exactly
chunk_size characters, and each pair of consecutive chunks overlaps in
exactly the chunk_overlap characters at their boundary. -/
theorem chunk_text_spec (text : List Char) (chunk_size chunk_overlap : Int)
    (hs : 0 < chunk_size) (ho0 : 0 ≤ chunk_overlap) (ho : chunk_overlap < chunk_size) :
    (chunk_text text chunk_size chunk_overlap).headD []
        ++ (((chunk_text text chunk_size chunk_overlap).tail).map
            (List.drop chunk_overlap.toNat)).join = normalizeWS text
    ∧ (∀ c ∈ chunk_text text chunk_size chunk_overlap, c.length ≤ chunk_size.toNat)
    ∧ (∀ i, i + 1 < (chunk_text text chunk_size chunk_overlap).length →
        ((chunk_text text chunk_size chunk_overlap).getD i []).length = chunk_size.toNat)
    ∧ (∀ i, i + 1 < (chunk_text text chunk_size chunk_overlap).length →
        ((chunk_text text chunk_size chunk_overlap).getD i []).drop
            (chunk_size.toNat - chunk_overlap.toNat)
          = ((chunk_text text chunk_size chunk_overlap).getD (i + 1) []).take
              chunk_overlap.toNat) := by
  by_cases hn : normalizeWS text = []
  · have hct : chunk_text text chunk_size chunk_overlap = [] := by
      show (if normalizeWS text = [] then []
        else chunkLoop (normalizeWS text) chunk_size chunk_overlap 0) = []
      rw [if_pos hn]
    rw [hct, hn]
    refine ⟨rfl, ?_, ?_, ?_⟩
    · intro c hc; cases hc
    · intro i hi; simp at hi
    · intro i hi; simp at hi
  · have hpos : 0 < (normalizeWS text).length := by
      cases hq : normalizeWS text with
      | nil => exact absurd hq hn
      | cons a l => simp [hq]
    have hct : chunk_text text chunk_size chunk_overlap
        = chunkLoop (normalizeWS text) chunk_size chunk_overlap 0 := by
      show (if normalizeWS text = [] then []
        else chunkLoop (normalizeWS text) chunk_size chunk_overlap 0) = _
      rw [if_neg hn]
    have H := chunkLoop_spec (normalizeWS text) chunk_size chunk_overlap hs ho0 ho
      (normalizeWS text).length 0 (by omega) (by omega)
    rw [hct]
    refine ⟨?_, H.2.2.1, H.2.2.2.1, H.2.2.2.2⟩
    have h1 := H.2.1
    rw [List.drop_zero] at h1
    exact h1

/-- Demo text for the chunker witness. -/
def demoText : List Char := ['a', 'b', ' ', 'c', 'd', 'e', 'f']

/-! ## The legacy branch runner: search.py RetrievalService._run_legacy_bm25. -/

/-- The legacy merge update: a new chunk id is stored; an existing doc
is replaced only by a strictly higher-scoring one. -/
def legacyUpd (d : Doc) (old : Option Doc) : Doc :=
  match old with
  | none => d
  | some e => if docScore e < docScore d then d else e

/-- search.py RetrievalService._run_legacy_bm25: one retriever.run per
query at the same top_k, results merged into an OrderedDict keyed by
chunk_id keeping the higher score, then sorted descending by score. -/
def run_legacy_bm25 (retrieve : String → Int → List Doc) (queries : List String)
    (top_k : Int) : List Doc :=
  sortByKeyDesc docScore
    ((queries.foldl (fun m q => foldA doc_chunk_id legacyUpd m (retrieve q top_k)) []).map
      Prod.snd)

theorem legacy_foldl_char (ys : List Doc) :
    ∀ r0 : Doc,
      ∃ r, ys.foldl (fun o d => some (legacyUpd d o)) (some r0) = some r
        ∧ (r ∈ ys ∨ r = r0)
        ∧ (∀ y ∈ ys, docScore y ≤ docScore r)
        ∧ docScore r0 ≤ docScore r := by
  induction ys with
  | nil =>
      intro r0
      refine ⟨r0, rfl, Or.inr rfl, ?_, le_refl _⟩
      intro y hy
      cases hy
  | cons y ys ih =>
      intro r0
      rw [List.foldl_cons]
      by_cases hc : docScore r0 < docScore y
      · have hly : legacyUpd y (some r0) = y := by simp [legacyUpd, hc]
        rw [hly]
        obtain ⟨r, hr, hmem, hmax, hry⟩ := ih y
        refine ⟨r, hr, ?_, ?_, le_trans (le_of_lt hc) hry⟩
        · rcases hmem with hm | hm
          · exact Or.inl (List.mem_cons_of_mem _ hm)
          · exact Or.inl (hm ▸ List.mem_cons_self _ _)
        · intro z hz
          rcases List.mem_cons.mp hz with rfl | hz
          · exact hry
          · exact hmax z hz
      · have hly : legacyUpd y (some r0) = r0 := by simp [legacyUpd, hc]
        rw [hly]
        obtain ⟨r, hr, hmem, hmax, hrr⟩ := ih r0
        refine ⟨r, hr, ?_, ?_, hrr⟩
        · rcases hmem with hm | hm
          · exact Or.inl (List.mem_cons_of_mem _ hm)
          · exact Or.inr hm
        · intro z hz
          rcases List.mem_cons.mp hz with rfl | hz
          · exact le_trans (le_of_not_lt hc) hrr
          · exact hmax z hz

/-- The merged dict of the two-query legacy run holds, per chunk id, a
doc of that chunk id drawn from the concatenated results, scoring at
least every result of that chunk id. -/
theorem legacy_merge_entries (l1 l2 : List Doc) :
    ∀ e ∈ foldA doc_chunk_id legacyUpd (foldA doc_chunk_id legacyUpd [] l1) l2,
      doc_chunk_id e.2 = e.1
      ∧ e.2 ∈ l1 ++ l2
      ∧ (∀ d ∈ l1 ++ l2, doc_chunk_id d = e.1 → docScore d ≤ docScore e.2) := by
  intro e he
  rw [← foldA_append] at he
  obtain ⟨cid, v⟩ := e
  have hinv := foldA_inv doc_chunk_id legacyUpd
    (fun cid d => doc_chunk_id d = cid ∧ d ∈ l1 ++ l2) (l1 ++ l2) []
    (by intro e' he'; cases he')
    (by
      intro b hb o ho
      match o with
      | none => exact ⟨rfl, hb⟩
      | some e' =>
          show doc_chunk_id (legacyUpd b (some e')) = doc_chunk_id b
            ∧ legacyUpd b (some e') ∈ l1 ++ l2
          by_cases hc : docScore e' < docScore b
          · have hly : legacyUpd b (some e') = b := by simp [legacyUpd, hc]
            rw [hly]
            exact ⟨rfl, hb⟩
          · have hly : legacyUpd b (some e') = e' := by simp [legacyUpd, hc]
            rw [hly]
            exact ho e' rfl)
    (cid, v) he
  have hnd : ((foldA doc_chunk_id legacyUpd [] (l1 ++ l2)).map Prod.fst).Nodup := by
    rw [keys_foldA]
    exact nodup_addKeys _ [] List.nodup_nil
  have hl : lookupA (foldA doc_chunk_id legacyUpd [] (l1 ++ l2)) cid = some v :=
    (mem_iff_lookupA _ cid v hnd).mp he
  rw [lookupA_foldA] at hl
  refine ⟨hinv.1, hinv.2, ?_⟩
  intro d hd hdc
  have hdf : d ∈ (l1 ++ l2).filter (fun b => doc_chunk_id b = cid) :=
    List.mem_filter.mpr ⟨hd, by simp [hdc]⟩
  rcases hflt : (l1 ++ l2).filter (fun b => doc_chunk_id b = cid) with _ | ⟨z, zs⟩
  · rw [hflt] at hdf; cases hdf
  · rw [hflt] at hl hdf
    rw [List.foldl_cons] at hl
    have h0 : some (legacyUpd z (lookupA ([] : List (String × Doc)) cid)) = some z := rfl
    rw [h0] at hl
    obtain ⟨r, hr, _, hmax, hz⟩ := legacy_foldl_char zs z
    rw [hr] at hl
    cases hl
    rcases List.mem_cons.mp hdf with rfl | hdf
    · exact hz
    · exact hmax d hdf

/-- The two demo hits of the spec example: the same chunk returned by
the two query variants with scores 0.4 and 0.7. -/
def demoDoc04 : Doc := { meta_chunk_id := some "c", score := some (2/5) }

def demoDoc07 : Doc := { meta_chunk_id := some "c", score := some (7/10) }

/-- A retriever returning the 0.4-hit for the original query and the
0.7-hit for the translated one. -/
def demoRetrieve : String → Int → List Doc :=
  fun q _ => if q = "q1" then [demoDoc04] else [demoDoc07]

/-- C3: running two queries through the legacy branch runner calls the
retriever once per query string at the same top_k, merges the two hit
lists keyed by chunk_id keeping the higher-scoring hit, and returns
the merge re-sorted descending by score: the output is sorted, has
each chunk id at most once, covers exactly the chunk ids retrieved,
and every returned hit is a retrieved hit whose score is maximal among
the retrieved hits with its chunk id. In the concrete example, scores
0.4 and 0.7 for the same chunk merge to the 0.7 hit. -/
theorem run_legacy_bm25_spec (retrieve : String → Int → List Doc)
    (q1 q2 : String) (top_k : Int) :
    (run_legacy_bm25 retrieve [q1, q2] top_k).Sorted (keyRel docScore)
    ∧ ((run_legacy_bm25 retrieve [q1, q2] top_k).map doc_chunk_id).Nodup
    ∧ ((run_legacy_bm25 retrieve [q1, q2] top_k).map doc_chunk_id).Perm
        (addKeys [] ((retrieve q1 top_k ++ retrieve q2 top_k).map doc_chunk_id))
    ∧ (∀ d ∈ run_legacy_bm25 retrieve [q1, q2] top_k,
        d ∈ retrieve q1 top_k ++ retrieve q2 top_k
        ∧ ∀ e ∈ retrieve q1 top_k ++ retrieve q2 top_k,
            doc_chunk_id e = doc_chunk_id d → docScore e ≤ docScore d)
    ∧ run_legacy_bm25 demoRetrieve ["q1", "q2"] 5 = [demoDoc07] := by
  have hrun : run_legacy_bm25 retrieve [q1, q2] top_k
      = sortByKeyDesc docScore
          ((foldA doc_chunk_id legacyUpd
            (foldA doc_chunk_id legacyUpd [] (retrieve q1 top_k)) (retrieve q2 top_k)).map
              Prod.snd) := rfl
  have hentries := legacy_merge_entries (retrieve q1 top_k) (retrieve q2 top_k)
  have hkeys : ((foldA doc_chunk_id legacyUpd
      (foldA doc_chunk_id legacyUpd [] (retrieve q1 top_k)) (retrieve q2 top_k)).map
        Prod.snd).map doc_chunk_id
      = (foldA doc_chunk_id legacyUpd
          (foldA doc_chunk_id legacyUpd [] (retrieve q1 top_k)) (retrieve q2 top_k)).map
            Prod.fst := by
    rw [List.map_map]
    exact List.map_congr_left (fun e he => (hentries e he).1)
  have hndk : ((foldA doc_chunk_id legacyUpd
      (foldA doc_chunk_id legacyUpd [] (retrieve q1 top_k)) (retrieve q2 top_k)).map
        Prod.fst).Nodup := by
    rw [← foldA_append, keys_foldA]
    exact nodup_addKeys _ [] List.nodup_nil
  refine ⟨?_, ?_, ?_, ?_, ?_⟩
  · rw [hrun]
    exact sortByKeyDesc_sorted docScore _
  · rw [hrun]
    refine (((sortByKeyDesc_perm docScore _).map doc_chunk_id).symm).nodup ?_
    rw [hkeys]
    exact hndk
  · rw [hrun]
    refine ((sortByKeyDesc_perm docScore _).map doc_chunk_id).trans ?_
    rw [hkeys, ← foldA_append, keys_foldA]
    exact List.Perm.refl _
  · intro d hd
    rw [hrun] at hd
    have hd2 := (mem_sortByKeyDesc _ _ _).mp hd
    obtain ⟨e, he, hde⟩ := List.mem_map.mp hd2
    obtain ⟨_, hmem, hmax⟩ := hentries e he
    subst hde
    exact ⟨hmem, fun z hz hzc => hmax z hz (by rw [hzc, ← (hentries e he).1])⟩
  · have h47 : docScore demoDoc04 < docScore demoDoc07 := by
      norm_num [docScore, demoDoc04, demoDoc07]
    have hm1 : foldA doc_chunk_id legacyUpd [] (demoRetrieve "q1" 5)
        = [("c", demoDoc04)] := rfl
    have hm2 : foldA doc_chunk_id legacyUpd [("c", demoDoc04)] (demoRetrieve "q2" 5)
        = [("c", demoDoc07)] := by
      show setA [("c", demoDoc04)] (doc_chunk_id demoDoc07) (legacyUpd demoDoc07)
          = [("c", demoDoc07)]
      rw [show doc_chunk_id demoDoc07 = "c" from rfl]
      show [("c", legacyUpd demoDoc07 (some demoDoc04))] = [("c", demoDoc07)]
      rw [show legacyUpd demoDoc07 (some demoDoc04)
          = if docScore demoDoc04 < docScore demoDoc07 then demoDoc07 else demoDoc04 from rfl]
      rw [if_pos h47]
    show sortByKeyDesc docScore
        ((foldA doc_chunk_id legacyUpd
          (foldA doc_chunk_id legacyUpd [] (demoRetrieve "q1" 5)) (demoRetrieve "q2" 5)).map
            Prod.snd) = [demoDoc07]
    rw [hm1, hm2]
    rfl

/-! ## Corpus loading: indexing.py load_corpus_records. The filesystem
and json.loads are external collaborators, passed in as functions; a
json_loads result of none models a raised JSONDecodeError (which
carries the offending line as its doc attribute). -/

/-- The errors a corpus load can raise: FileNotFoundError for a missing
path, or the parse error carrying the offending line. -/
inductive LoadError where
  | notFound (path : String)
  | parseError (line : String)
deriving DecidableEq, Repr

/-- The line loop of load_corpus_records: strip each line, skip blanks,
parse the rest in order; a failed parse is a hard stop that returns no
records. -/
def loadLines {α : Type} (json_loads : String → Option α) :
    List String → Except LoadError (List α)
  | [] => Except.ok []
  | line :: rest =>
      if line.trim = "" then loadLines json_loads rest
      else
        match json_loads line.trim with
        | none => Except.error (LoadError.parseError line.trim)
        | some r =>
            match loadLines json_loads rest with
            | Except.ok rs => Except.ok (r :: rs)
            | Except.error e => Except.error e

/-- indexing.py load_corpus_records: FileNotFoundError when the path
does not exist, else parse the file's lines. -/
def load_corpus_records {α : Type} (path_exists : String → Bool)
    (read_lines : String → List String) (json_loads : String → Option α)
    (path : String) : Except LoadError (List α) :=
  if path_exists path = false then Except.error (LoadError.notFound path)
  else loadLines json_loads (read_lines path)

theorem loadLines_ne_notFound {α : Type} (json_loads : String → Option α) (p : String) :
    ∀ lines, loadLines json_loads lines ≠ Except.error (LoadError.notFound p) := by
  intro lines
  induction lines with
  | nil => intro h; cases h
  | cons line rest ih =>
      intro h
      rw [loadLines] at h
      by_cases hb : line.trim = ""
      · rw [if_pos hb] at h
        exact ih h
      · rw [if_neg hb] at h
        cases hj : json_loads line.trim with
        | none => rw [hj] at h; cases h
        | some r =>
            rw [hj] at h
            cases hrest : loadLines json_loads rest with
            | ok rs => rw [hrest] at h; cases h
            | error e =>
                rw [hrest] at h
                cases h
                exact ih hrest

theorem loadLines_all_ok {α : Type} (json_loads : String → Option α) :
    ∀ lines : List String,
      (∀ l ∈ (lines.map String.trim).filter (fun s => s ≠ ""), json_loads l ≠ none) →
      loadLines json_loads lines
        = Except.ok (((lines.map String.trim).filter (fun s => s ≠ "")).filterMap json_loads) := by
  intro lines
  induction lines with
  | nil => intro _; rfl
  | cons line rest ih =>
      intro hall
      rw [loadLines]
      by_cases hb : line.trim = ""
      · rw [if_pos hb, List.map_cons, List.filter_cons_of_neg (by simp [hb])]
        exact ih (by
          intro l hl
          exact hall l (by rw [List.map_cons, List.filter_cons_of_neg (by simp [hb])]; exact hl))
      · rw [if_neg hb]
        have hmem : line.trim ∈ ((line :: rest).map String.trim).filter (fun s => s ≠ "") := by
          rw [List.map_cons, List.filter_cons_of_pos (by simp [hb])]
          exact List.mem_cons_self _ _
        cases hj : json_loads line.trim with
        | none => exact absurd hj (hall line.trim hmem)
        | some r =>
            rw [ih (by
              intro l hl
              exact hall l (by
                rw [List.map_cons, List.filter_cons_of_pos (by simp [hb])]
                exact List.mem_cons_of_mem _ hl))]
            rw [List.map_cons, List.filter_cons_of_pos (by simp [hb]),
              List.filterMap_cons, hj]

theorem loadLines_first_bad {α : Type} (json_loads : String → Option α) :
    ∀ (lines : List String) (pre : List String) (bad : String) (post : List String),
      (lines.map String.trim).filter (fun s => s ≠ "") = pre ++ bad :: post →
      (∀ l ∈ pre, json_loads l ≠ none) →
      json_loads bad = none →
      loadLines json_loads lines = Except.error (LoadError.parseError bad) := by
  intro lines
  induction lines with
  | nil =>
      intro pre bad post heq _ _
      rw [List.map_nil, List.filter_nil] at heq
      cases pre with
      | nil => cases heq
      | cons p ps => cases heq
  | cons line rest ih =>
      intro pre bad post heq hpre hbad
      rw [loadLines]
      by_cases hb : line.trim = ""
      · rw [if_pos hb]
        rw [List.map_cons, List.filter_cons_of_neg (by simp [hb])] at heq
        exact ih pre bad post heq hpre hbad
      · rw [if_neg hb]
        rw [List.map_cons, List.filter_cons_of_pos (by simp [hb])] at heq
        cases pre with
        | nil =>
            rw [List.nil_append] at heq
            have hbadline : line.trim = bad := (List.cons.injEq _ _ _ _).mp heq |>.1
            rw [hbadline, hbad]
        | cons p ps =>
            rw [List.cons_append] at heq
            injection heq with h1 h2
            cases hj : json_loads line.trim with
            | none =>
                rw [h1] at hj
                exact absurd hj (hpre p (List.mem_cons_self _ _))
            | some r =>
                rw [ih ps bad post h2 (fun l hl => hpre l (List.mem_cons_of_mem _ hl)) hbad]

/-- C7: the corpus load raises the not-found error iff the path does
not exist; otherwise each non-blank (stripped) line is parsed as one
independent record in order, and the first malformed line raises a
parse error naming that line, as a hard stop that returns no records. -/
theorem load_corpus_records_spec {α : Type} (path_exists : String → Bool)
    (read_lines : String → List String) (json_loads : String → Option α)
    (path : String) :
    (load_corpus_records path_exists read_lines json_loads path
        = Except.error (LoadError.notFound path) ↔ path_exists path = false)
    ∧ (path_exists path = true →
        (∀ l ∈ ((read_lines path).map String.trim).filter (fun s => s ≠ ""),
          json_loads l ≠ none) →
        load_corpus_records path_exists read_lines json_loads path
          = Except.ok ((((read_lines path).map String.trim).filter
              (fun s => s ≠ "")).filterMap json_loads))
    ∧ (∀ (pre : List String) (bad : String) (post : List String),
        path_exists path = true →
        ((read_lines path).map String.trim).filter (fun s => s ≠ "") = pre ++ bad :: post →
        (∀ l ∈ pre, json_loads l ≠ none) →
        json_loads bad = none →
        load_corpus_records path_exists read_lines json_loads path
          = Except.error (LoadError.parseError bad)) := by
  refine ⟨?_, ?_, ?_⟩
  · constructor
    · intro h
      by_cases hex : path_exists path = false
      · exact hex
      · rw [load_corpus_records, if_neg hex] at h
        exact absurd h (loadLines_ne_notFound json_loads path (read_lines path))
    · intro h
      rw [load_corpus_records, if_pos h]
  · intro hex hall
    rw [load_corpus_records, if_neg (by rw [hex]; exact fun h => by cases h)]
    exact loadLines_all_ok json_loads (read_lines path) hall
  · intro pre bad post hex heq hpre hbad
    rw [load_corpus_records, if_neg (by rw [hex]; exact fun h => by cases h)]
    exact loadLines_first_bad json_loads (read_lines path) pre bad post heq hpre hbad

/-! ## top_k resolution (claims C5 and C8). -/

/-- C5 counterexample: a caller-supplied top_k of 0 is rejected by the
request model's validation rather than silently clamped; and the
service-level resolution at top_k = -3 yields -3, which is not in
[1, max_top_k], so no clamping to that range happens before use. -/
theorem top_k_clamping_counterexample :
    searchRequestTopKOk (some 0) = false
    ∧ resolveFinalTopK 5 10 (some (-3)) = -3
    ∧ ¬ (1 ≤ (-3 : Int)) :=
  ⟨by decide, by decide, by decide⟩

/-- C5 (amended): the API boundary rejects a top_k outside [1, 20] with
a validation error instead of clamping it; within the service, top_k
is clamped above to max_top_k and a missing or zero (falsy) value
falls back to the default, but nothing clamps the value below 1. -/
theorem top_k_clamping_spec (default_top_k max_top_k v : Int) :
    (1 ≤ v → v ≤ 20 → searchRequestTopKOk (some v) = true)
    ∧ (v < 1 ∨ 20 < v → searchRequestTopKOk (some v) = false)
    ∧ searchRequestTopKOk none = true
    ∧ resolveFinalTopK default_top_k max_top_k none = min default_top_k max_top_k
    ∧ resolveFinalTopK default_top_k max_top_k (some 0) = min default_top_k max_top_k
    ∧ (v ≠ 0 → resolveFinalTopK default_top_k max_top_k (some v) = min v max_top_k)
    ∧ resolveFinalTopK default_top_k max_top_k (some v) ≤ max_top_k := by
  refine ⟨?_, ?_, rfl, rfl, rfl, ?_, ?_⟩
  · intro h1 h2
    simp [searchRequestTopKOk, h1, h2]
  · intro h
    have hno : ¬ (1 ≤ v ∧ v ≤ 20) := by omega
    simp [searchRequestTopKOk, hno]
  · intro hv
    show min (if v = 0 then default_top_k else v) max_top_k = min v max_top_k
    rw [if_neg hv]
  · exact min_le_right _ _

/-- search.py RetrievalService._resolve_branch_top_k: no widening when
the configured branch floor is <= 0, else min(max(final, floor),
max_top_k). -/
def resolve_branch_top_k (branch_floor max_top_k final_top_k : Int) : Int :=
  if branch_floor ≤ 0 then final_top_k
  else min (max final_top_k branch_floor) max_top_k

/-- C8 counterexample: with floor 3, max 10 and final_top_k 15 the code
resolves 10, below final_top_k, refuting the never-below-final clause;
and with the floor 0 the code resolves 15 while the claimed clamp
formula gives 10, refuting the claimed equality. -/
theorem branch_top_k_counterexample :
    resolve_branch_top_k 3 10 15 = 10
    ∧ ¬ (15 ≤ (10 : Int))
    ∧ resolve_branch_top_k 0 10 15 = 15
    ∧ min (max (max 15 0) 15) (10 : Int) = 10
    ∧ (15 : Int) ≠ 10 :=
  ⟨by decide, by decide, by decide, by decide, by decide⟩

/-- C8 (amended): for final_top_k in [1, max_top_k] (as holds at the
call site, where k has already been capped), the resolved branch top_k
equals clamp(max(final, floor), final, max): it is never below final,
never above max, and with floor <= 0 no widening happens and it equals
final exactly. -/
theorem branch_top_k_spec (branch_floor max_top_k final_top_k : Int)
    (h1 : 1 ≤ final_top_k) (h2 : final_top_k ≤ max_top_k) :
    resolve_branch_top_k branch_floor max_top_k final_top_k
      = min (max (max final_top_k branch_floor) final_top_k) max_top_k
    ∧ final_top_k ≤ resolve_branch_top_k branch_floor max_top_k final_top_k
    ∧ resolve_branch_top_k branch_floor max_top_k final_top_k ≤ max_top_k
    ∧ (branch_floor ≤ 0 →
        resolve_branch_top_k branch_floor max_top_k final_top_k = final_top_k) := by
  rw [resolve_branch_top_k]
  by_cases hf : branch_floor ≤ 0
  · rw [if_pos hf]
    exact ⟨by omega, by omega, by omega, fun _ => rfl⟩
  · rw [if_neg hf]
    exact ⟨by omega, by omega, by omega, fun h => absurd h hf⟩

theorem branch_top_k_spec_witness :
    ((1 : Int) ≤ 5 ∧ (5 : Int) ≤ 10)
    ∧ (resolve_branch_top_k 3 10 5 = min (max (max 5 3) 5) 10
      ∧ (5 : Int) ≤ resolve_branch_top_k 3 10 5
      ∧ resolve_branch_top_k 3 10 5 ≤ 10
      ∧ ((3 : Int) ≤ 0 → resolve_branch_top_k 3 10 5 = 5)) :=
  ⟨⟨by decide, by decide⟩, branch_top_k_spec 3 10 5 (by decide) (by decide)⟩

theorem chunk_text_spec_witness :
    ((0 : Int) < 3 ∧ (0 : Int) ≤ 1 ∧ (1 : Int) < 3)
    ∧ ((chunk_text demoText 3 1).headD []
          ++ (((chunk_text demoText 3 1).tail).map
              (List.drop (1 : Int).toNat)).join = normalizeWS demoText
      ∧ (∀ c ∈ chunk_text demoText 3 1, c.length ≤ (3 : Int).toNat)
      ∧ (∀ i, i + 1 < (chunk_text demoText 3 1).length →
          ((chunk_text demoText 3 1).getD i []).length = (3 : Int).toNat)
      ∧ (∀ i, i + 1 < (chunk_text demoText 3 1).length →
          ((chunk_text demoText 3 1).getD i []).drop ((3 : Int).toNat - (1 : Int).toNat)
            = ((chunk_text demoText 3 1).getD (i + 1) []).take (1 : Int).toNat)) :=
  ⟨⟨by decide, by decide, by decide⟩,
    chunk_text_spec demoText 3 1 (by decide) (by decide) (by decide)⟩

end Tinge
